import Mathlib

/-!
Verification of the fiqh ingestion and indexing pipeline.

The definitions below are a shallow embedding of the Python scripts
`process_texts.py`, `convert_hadith.py`, `convert_islamqa.py` and
`generate_embeddings.py`: strings are lists of characters, pure helper
functions become Lean functions, and the stateful indexing loop becomes an
explicit state-passing function over an abstract vector-store state.
-/

namespace Fiqh

/-- Strings of the embedded programs are lists of characters. -/
abbrev Str := List Char

/-- Conversion from Lean string literals into the embedded string type. -/
def str (s : String) : Str := s.toList

/-- The whitespace characters matched by Python's regex class `\s` on `str`
and stripped by `str.strip()`. -/
def pySpaceChars : Str :=
  [' ', '\t', '\n', '\r', '\u000b', '\u000c',
   '\u001c', '\u001d', '\u001e', '\u001f', '\u0085', '\u00a0',
   '\u1680', '\u2000', '\u2001', '\u2002', '\u2003', '\u2004',
   '\u2005', '\u2006', '\u2007', '\u2008', '\u2009', '\u200a',
   '\u2028', '\u2029', '\u202f', '\u205f', '\u3000']

/-- Whether a character is Python whitespace. -/
def pySpace (c : Char) : Bool := pySpaceChars.contains c

/-- `startsWith pat s` holds when `pat` occurs at the beginning of `s`. -/
def startsWith : Str → Str → Bool
  | [], _ => true
  | _ :: _, [] => false
  | p :: ps, c :: cs => p == c && startsWith ps cs

/-- Python's substring containment test `needle in hay`. -/
def containsSub (needle : Str) : Str → Bool
  | [] => needle.isEmpty
  | c :: cs => startsWith needle (c :: cs) || containsSub needle cs

/-- Fuel-driven worker for `replaceStr`; the fuel is always at least the
length of the remaining string, so the fuel-exhaustion branch is inert. -/
def replaceAux (pat rep : Str) : Nat → Str → Str
  | 0, s => s
  | _, [] => []
  | f + 1, c :: cs =>
    if startsWith pat (c :: cs) then
      rep ++ replaceAux pat rep f ((c :: cs).drop pat.length)
    else
      c :: replaceAux pat rep f cs

/-- Python's `str.replace`: left-to-right, non-overlapping replacement of
every occurrence of `pat` by `rep`. -/
def replaceStr (pat rep s : Str) : Str := replaceAux pat rep s.length s

/-- `re.sub(r'\s+', ' ', text)`: every maximal run of whitespace becomes a
single ASCII space. -/
def collapseWs : Str → Str
  | [] => []
  | [c] => [if pySpace c then ' ' else c]
  | c :: d :: rest =>
    if pySpace c && pySpace d then collapseWs (d :: rest)
    else (if pySpace c then ' ' else c) :: collapseWs (d :: rest)

/-- Given the text following a `<`, return the text after the matching `>`
of a `<[^>]+>` tag, or `none` when the regex does not match here. -/
def splitTag (cs : Str) : Option Str :=
  match cs.dropWhile (fun d => !(d == '>')) with
  | [] => none
  | _ :: rest => if cs.takeWhile (fun d => !(d == '>')) = [] then none else some rest

/-- Fuel-driven worker for `stripTags`. -/
def stripTagsAux : Nat → Str → Str
  | 0, s => s
  | _, [] => []
  | f + 1, c :: cs =>
    if c = '<' then
      match splitTag cs with
      | some rest => stripTagsAux f rest
      | none => c :: stripTagsAux f cs
    else c :: stripTagsAux f cs

/-- `re.sub(r'<[^>]+>', '', text)`: delete every `<...>` tag. -/
def stripTags (s : Str) : Str := stripTagsAux s.length s

/-- Python's `str.strip()`: drop whitespace from both ends. -/
def pyStrip (s : Str) : Str :=
  ((s.dropWhile pySpace).reverse.dropWhile pySpace).reverse

/-- `clean_text` from `process_texts.py`: collapse whitespace, decode the
five HTML entities, strip `<...>` tags, run the quote-normalization
statements, trim.  The source's quote lines hold no curly quotes: line 40
is two replacements of the straight double quote by itself, and in line 41
the three consecutive single quotes open a triple-quoted string, so the
line parses as one replacement of the fifteen-character pattern
[comma, space, double quote, quote, double quote, rparen, dot,
r, e, p, l, a, c, e, lparen] by a single quote character. -/
def clean_text (s : Str) : Str :=
  if s = [] then []
  else
    let t1 := collapseWs s
    let t2 := replaceStr (str "&nbsp;") (str " ") t1
    let t3 := replaceStr (str "&quot;") (str "\"") t2
    let t4 := replaceStr (str "&amp;") (str "&") t3
    let t5 := replaceStr (str "&lt;") (str "<") t4
    let t6 := replaceStr (str "&gt;") (str ">") t5
    let t7 := stripTags t6
    let t8 := replaceStr (str "\"") (str "\"") (replaceStr (str "\"") (str "\"") t7)
    let t9 := replaceStr (str ", \"'\").replace(") (str "'") t8
    pyStrip t9

/-- The spelling-variant table `normalizations` of `normalize_topic`. -/
def normalizations : List (Str × Str) :=
  [(str "salah", str "prayer"), (str "salat", str "prayer"),
   (str "namaz", str "prayer"), (str "salaah", str "prayer"),
   (str "wudhu", str "wudu"), (str "wudoo", str "wudu"),
   (str "zakah", str "zakat"), (str "zakaah", str "zakat"),
   (str "sawm", str "fasting"), (str "siyam", str "fasting"),
   (str "hajj", str "pilgrimage"), (str "nikah", str "marriage"),
   (str "talaaq", str "divorce"), (str "talaq", str "divorce")]

/-- Association lookup used for the `normalizations` table
(`dict.get(topic, topic)`). -/
def lookupTopic : List (Str × Str) → Str → Option Str
  | [], _ => none
  | (k, v) :: rest, t => if k = t then some v else lookupTopic rest t

/-- `normalize_topic` from `process_texts.py`: lower-case, trim, then map
known spelling variants to canonical names, defaulting to the processed
tag itself. -/
def normalize_topic (t : Str) : Str :=
  let t' := pyStrip (t.map Char.toLower)
  match lookupTopic normalizations t' with
  | some canonical => canonical
  | none => t'

/-- The `topic_keywords` table of `extract_topics_from_chapter` in
`convert_hadith.py`. -/
def topicKeywordsHadith : List (Str × List Str) :=
  [(str "prayer", [str "prayer", str "salah", str "salat", str "praying"]),
   (str "fasting", [str "fasting", str "fast", str "sawm", str "ramadan"]),
   (str "zakat", [str "zakat", str "charity", str "alms"]),
   (str "hajj", [str "hajj", str "pilgrimage", str "umrah"]),
   (str "purification",
    [str "purification", str "wudu", str "ablution", str "ghusl", str "tayammum"]),
   (str "faith", [str "faith", str "belief", str "iman", str "creed"]),
   (str "marriage", [str "marriage", str "nikah", str "divorce", str "talaq"]),
   (str "trade",
    [str "trade", str "business", str "transactions", str "buying", str "selling"]),
   (str "food", [str "food", str "drink", str "eating", str "slaughtering"]),
   (str "clothing", [str "clothing", str "dress", str "garment"]),
   (str "funeral", [str "funeral", str "burial", str "death", str "janazah"]),
   (str "jihad", [str "jihad", str "fighting", str "warfare"]),
   (str "knowledge", [str "knowledge", str "learning", str "teaching"]),
   (str "manners", [str "manners", str "adab", str "etiquette", str "behavior"])]

/-- The `topic_keywords` table of `extract_topics_from_title` in
`convert_islamqa.py`. -/
def topicKeywordsFatwa : List (Str × List Str) :=
  [(str "prayer", [str "صلاة", str "صلوات", str "prayer", str "salah", str "صلى"]),
   (str "fasting", [str "صيام", str "صوم", str "fasting", str "رمضان", str "ramadan"]),
   (str "zakat", [str "زكاة", str "zakat", str "charity"]),
   (str "hajj", [str "حج", str "عمرة", str "hajj", str "umrah"]),
   (str "purification", [str "طهارة", str "وضوء", str "غسل", str "purification", str "wudu"]),
   (str "marriage", [str "زواج", str "نكاح", str "طلاق", str "marriage", str "divorce"]),
   (str "faith", [str "إيمان", str "عقيدة", str "faith", str "belief"]),
   (str "quran", [str "قرآن", str "quran", str "recitation", str "تلاوة"]),
   (str "hadith", [str "حديث", str "hadith", str "سنة"]),
   (str "family", [str "أسرة", str "أهل", str "family", str "والدين", str "parents"]),
   (str "business", [str "معاملات", str "بيع", str "شراء", str "تجارة", str "business", str "trade"]),
   (str "inheritance", [str "ميراث", str "inheritance", str "وراثة"]),
   (str "food", [str "طعام", str "أكل", str "food", str "eating"]),
   (str "manners", [str "أخلاق", str "آداب", str "manners", str "behavior"]),
   (str "worship", [str "عبادة", str "عبادات", str "worship"])]

/-- Topics of a keyword table matching a lower-cased input: a topic is kept
when any of its keywords occurs as a substring. -/
def matchedTopics (table : List (Str × List Str)) (lower : Str) : List Str :=
  (table.filter (fun p => p.2.any (fun kw => containsSub kw lower))).map Prod.fst

/-- All registered keywords of a table, in table order. -/
def allKeywords (table : List (Str × List Str)) : List Str :=
  (table.map Prod.snd).flatten

/-- `extract_topics_from_chapter` from `convert_hadith.py`. -/
def extract_topics_from_chapter (chapterName : Str) : List Str :=
  if chapterName = [] then [str "general"]
  else
    let ts := matchedTopics topicKeywordsHadith (chapterName.map Char.toLower)
    if ts = [] then [str "general"] else ts

/-- `extract_topics_from_title` from `convert_islamqa.py`. -/
def extract_topics_from_title (title : Str) : List Str :=
  if title = [] then [str "general"]
  else
    let ts := matchedTopics topicKeywordsFatwa (title.map Char.toLower)
    if ts = [] then [str "general"] else ts

/-- The canonical record produced by unification (`FiqhEntry`). -/
structure FiqhEntry where
  id : Str
  type : Str
  question : Option Str
  ruling : Str
  arabicText : Str
  evidence : List Str
  topics : List Str
  madhab : Option Str
  authenticity : Option Str
  date : Option Str
deriving DecidableEq

/-- A raw hadith-shaped record as read by `process_hadith_file`
(`hadith.get(...)` with its defaults; absent keys are `none`). -/
structure HadithRecord where
  id : Option Str
  ruling : Str
  arabicText : Str
  evidence : List Str
  authenticity : Option Str
  topics : List Str
deriving DecidableEq

/-- A raw fatwa-shaped record as read by `process_fatwa_file`. -/
structure FatwaRecord where
  id : Option Str
  question : Str
  ruling : Str
  evidence : List Str
  topics : List Str
  madhab : Option Str
  date : Option Str
deriving DecidableEq

/-- The per-record body of `process_hadith_file`.  `ext` abstracts
`extract_evidence_from_text` (a regex scanner whose output feeds only the
`evidence` field and is irrelevant to every property proved here), and
`fresh` stands for the generated `uuid4` fallback id. -/
def unifyHadith (ext : Str → List Str) (fresh : Str) (h : HadithRecord) :
    Option FiqhEntry :=
  let ruling := clean_text h.ruling
  if ruling = [] ∨ ruling.length < 20 then none
  else
    let topics0 := h.topics.map normalize_topic
    let topics := if topics0 = [] then [str "general"] else topics0
    let evidence := if h.evidence = [] then ext ruling else h.evidence
    some
      { id := h.id.getD fresh
        type := str "hadith"
        question := none
        ruling := ruling
        arabicText := clean_text h.arabicText
        evidence := evidence
        topics := topics
        madhab := none
        authenticity := some (h.authenticity.getD (str "unknown"))
        date := none }

/-- The per-record body of `process_fatwa_file`. -/
def unifyFatwa (ext : Str → List Str) (fresh : Str) (f : FatwaRecord) :
    Option FiqhEntry :=
  let question := clean_text f.question
  let ruling := clean_text f.ruling
  if ruling = [] ∨ ruling.length < 50 then none
  else
    let topics0 := f.topics.map normalize_topic
    let topics := if topics0 = [] then [str "general"] else topics0
    let evidence := if f.evidence = [] then ext ruling else f.evidence
    some
      { id := f.id.getD fresh
        type := str "fatwa"
        question := some question
        ruling := ruling
        arabicText := str ""
        evidence := evidence
        topics := topics
        madhab := some (f.madhab.getD (str "general"))
        authenticity := none
        date := f.date }

/-- The fields of one entry of the AhmedBaset hadith JSON that
`convert_hadith` reads. -/
structure RawHadithJson where
  id : Option Nat
  idInBook : Option Nat
  bookId : Option Nat
  chapterId : Option Nat
  narrator : Str
  text : Str
  arabic : Str
deriving DecidableEq

/-- Decimal rendering of a natural number, as Python string interpolation
would produce. -/
def natToStr (n : Nat) : Str := (Nat.repr n).toList

/-- Lookup of a chapter record by id in the `chapters_map`. -/
def lookupChapter : List (Nat × Str) → Nat → Option Str
  | [], _ => none
  | (k, v) :: rest, i => if k = i then some v else lookupChapter rest i

/-- `convert_hadith` from `convert_hadith.py`, restricted to the fields a
`HadithRecord` carries.  `key` is the collection key and `auth` the
collection's authenticity grade from `COLLECTION_INFO`. -/
def convert_hadith (key : Str) (auth : Str) (chaptersMap : List (Nat × Str))
    (h : RawHadithJson) : HadithRecord :=
  let chapterName :=
    match h.chapterId with
    | some i => (lookupChapter chaptersMap i).getD (str "")
    | none => str ""
  let topics := extract_topics_from_chapter chapterName
  let ruling :=
    if h.narrator ≠ [] ∧ h.text ≠ [] then h.narrator ++ str "\n\n" ++ h.text
    else if h.text ≠ [] then h.text
    else h.arabic
  let hadithNum : Str :=
    match h.idInBook with
    | some n => natToStr n
    | none =>
      match h.id with
      | some n => natToStr n
      | none => str "?"
  let entryId : Str :=
    key ++ str "_" ++ (match h.id with | some n => natToStr n | none => hadithNum)
  { id := some entryId
    ruling := pyStrip ruling
    arabicText := h.arabic
    evidence := []
    authenticity := some auth
    topics := topics }

/-- `create_embedding_text` from `generate_embeddings.py`: the text payload
embedded for one entry, assembled in the source's order and joined with
blank lines.  Python truthiness makes an empty question/madhab behave as
absent. -/
def create_embedding_text (e : FiqhEntry) : Str :=
  let parts : List Str := []
  let parts :=
    match e.question with
    | some q => if q = [] then parts else parts ++ [str "Question: " ++ q]
    | none => parts
  let parts := parts ++ [e.ruling]
  let parts :=
    if e.evidence = [] then parts
    else parts ++ [str "Evidence: " ++ List.intercalate (str " | ") e.evidence]
  let parts :=
    if e.topics = [] then parts
    else parts ++ [str "Topics: " ++ List.intercalate (str ", ") e.topics]
  let parts :=
    match e.madhab with
    | some m => if m = [] ∨ m = str "general" then parts else parts ++ [str "Madhab: " ++ m]
    | none => parts
  List.intercalate (str "\n\n") parts

/-- The embedding text as §4.6 of the specification words it: optional
segments in fixed order, the absent ones dropped, joined by blank lines. -/
def buildTextSpec (e : FiqhEntry) : Str :=
  List.intercalate (str "\n\n")
    (List.filterMap id
      [(match e.question with
        | some q => if q ≠ [] then some (str "Question: " ++ q) else none
        | none => none),
       some e.ruling,
       (if e.evidence ≠ [] then
          some (str "Evidence: " ++ List.intercalate (str " | ") e.evidence)
        else none),
       (if e.topics ≠ [] then
          some (str "Topics: " ++ List.intercalate (str ", ") e.topics)
        else none),
       (match e.madhab with
        | some m =>
          if m ≠ [] ∧ m ≠ str "general" then some (str "Madhab: " ++ m) else none
        | none => none)])

/-- `BATCH_SIZE` from `generate_embeddings.py`. -/
def BATCH_SIZE : Nat := 100

/-- One externally visible event of an indexing run: an embedding-provider
call carrying the batch's texts, or a committed store write carrying the
batch's ids. -/
inductive Ev where
  | providerCall (texts : List Str)
  | storeWrite (ids : List Str)
deriving DecidableEq

/-- Result of an indexing run over the abstract store: the ids the store
holds afterwards (`count()` is their number), the chronological event
trace, and whether the run stopped in the batch-failure branch. -/
structure RunState where
  storeIds : List Str
  trace : List Ev
  halted : Bool
deriving DecidableEq

/-- Fuel-driven worker partitioning a list into `BATCH_SIZE` slices, as the
loop `for i in range(0, len, BATCH_SIZE)` does. -/
def chunksAux {α : Type} : Nat → List α → List (List α)
  | 0, _ => []
  | _, [] => []
  | f + 1, x :: xs => ((x :: xs).take BATCH_SIZE) :: chunksAux f ((x :: xs).drop BATCH_SIZE)

/-- Partition a list into consecutive batches of `BATCH_SIZE`. -/
def chunks100 {α : Type} (l : List α) : List (List α) := chunksAux l.length l

/-- The batch loop of `main`: for each batch build the embedding texts,
call the provider, then write the batch to the store; on a provider or
store exception stop immediately.  The oracles `pfail` and `sfail` say, per
batch, whether the provider call or the store write raises. -/
def processBatches : List Bool → List Bool → List (List FiqhEntry) → List Str → RunState
  | _, _, [], store => ⟨store, [], false⟩
  | pfail, sfail, b :: rest, store =>
    let texts := b.map create_embedding_text
    if pfail.headD false then ⟨store, [Ev.providerCall texts], true⟩
    else if sfail.headD false then ⟨store, [Ev.providerCall texts], true⟩
    else
      let r := processBatches pfail.tail sfail.tail rest (store ++ b.map FiqhEntry.id)
      ⟨r.storeIds, Ev.providerCall texts :: Ev.storeWrite (b.map FiqhEntry.id) :: r.trace, r.halted⟩

/-- `entries_to_process`: the entries whose id is not among the ids fetched
from the store. -/
def pendingOf (entries : List FiqhEntry) (existing : List Str) : List FiqhEntry :=
  entries.filter (fun e => decide (e.id ∉ existing))

/-- The indexing phase of `main` in `generate_embeddings.py`: fetch the
already-indexed ids once up front (an empty set when that query raises,
`getFails`), filter the corpus down to the pending entries, return at once
when nothing is pending, and otherwise run the batch loop. -/
def indexRun (pfail sfail : List Bool) (getFails : Bool)
    (entries : List FiqhEntry) (store : List Str) : RunState :=
  let existing : List Str := if getFails then [] else store
  let pending := pendingOf entries existing
  if pending.isEmpty then ⟨store, [], false⟩
  else processBatches pfail sfail (chunks100 pending) store

/-- The kind and size of an event: `true` for a provider call, paired with
the number of texts or ids it carries. -/
def evShape : Ev → Bool × Nat
  | Ev.providerCall texts => (true, texts.length)
  | Ev.storeWrite ids => (false, ids.length)

/-- The event trace of running the batch loop over `bs` without failures. -/
def batchTrace (bs : List (List FiqhEntry)) : List Ev :=
  bs.flatMap (fun b => [Ev.providerCall (b.map create_embedding_text),
                        Ev.storeWrite (b.map FiqhEntry.id)])

/-- Number of embedding-provider calls recorded in a trace. -/
def numProviderCalls (t : List Ev) : Nat :=
  (t.filter (fun ev => (evShape ev).1)).length

/-- The batch sizes produced when `n` entries are cut into `BATCH_SIZE`
slices, driven by the same fuel as `chunksAux`. -/
def sizesAux : Nat → Nat → List Nat
  | 0, _ => []
  | _ + 1, 0 => []
  | f + 1, n + 1 => min BATCH_SIZE (n + 1) :: sizesAux f (n + 1 - BATCH_SIZE)

/-- A sample canonical entry used to instantiate universally quantified
theorems at concrete inputs. -/
def eW : FiqhEntry :=
  { id := str "e1", type := str "hadith", question := none,
    ruling := str "The ruling body of a sample entry.", arabicText := str "",
    evidence := [], topics := [str "general"], madhab := none,
    authenticity := some (str "sahih"), date := none }

/-- A corpus of 250 entries with distinct ids. -/
def testEntries250 : List FiqhEntry :=
  (List.range 250).map (fun n => { eW with id := natToStr n })

/-- The raw hadith of Example 1 of the specification. -/
def rawAisha : RawHadithJson :=
  { id := some 1, idInBook := some 1, bookId := some 1, chapterId := some 3,
    narrator := str "Narrated Aisha:", text := str "The Prophet said ...",
    arabic := str "" }

/-- Example 1 run through `convert_hadith` with the chapter map carrying
chapter 3, "The Book of Prayer". -/
def aishaRecord : HadithRecord :=
  convert_hadith (str "bukhari") (str "sahih") [(3, str "The Book of Prayer")] rawAisha

/-- A string is in collapsed form when its only whitespace character is the
ASCII space and no two whitespace characters are adjacent. -/
def NoTwoSpaces (t : Str) : Prop :=
  (∀ c ∈ t, pySpace c = true → c = ' ') ∧
  List.Chain' (fun a b => ¬(pySpace a = true ∧ pySpace b = true)) t

/-- If no keyword of a table occurs in the lower-cased input, no topic of
that table matches. -/
theorem matchedTopics_eq_nil {table : List (Str × List Str)} {lower : Str}
    (hnone : ∀ kw ∈ allKeywords table, containsSub kw lower = false) :
    matchedTopics table lower = [] := by
  unfold matchedTopics
  rw [List.map_eq_nil_iff, List.filter_eq_nil_iff]
  intro p hp hany
  rw [List.any_eq_true] at hany
  obtain ⟨kw, hkw, hc⟩ := hany
  have hmem : kw ∈ allKeywords table :=
    List.mem_flatten.mpr ⟨p.2, List.mem_map_of_mem _ hp, hkw⟩
  rw [hnone kw hmem] at hc
  exact Bool.false_ne_true hc

/-- C3: a record whose cleaned ruling is empty or below the type-specific
minimum (20 characters for hadith, 50 for fatwa) is excluded by
unification, and unification never returns a `FiqhEntry` whose ruling is
shorter than that threshold. -/
theorem unify_ruling_min_length :
    (∀ (ext : Str → List Str) (fresh : Str) (h : HadithRecord),
        clean_text h.ruling = [] ∨ (clean_text h.ruling).length < 20 →
        unifyHadith ext fresh h = none) ∧
    (∀ (ext : Str → List Str) (fresh : Str) (h : HadithRecord) (e : FiqhEntry),
        unifyHadith ext fresh h = some e → 20 ≤ e.ruling.length) ∧
    (∀ (ext : Str → List Str) (fresh : Str) (f : FatwaRecord),
        clean_text f.ruling = [] ∨ (clean_text f.ruling).length < 50 →
        unifyFatwa ext fresh f = none) ∧
    (∀ (ext : Str → List Str) (fresh : Str) (f : FatwaRecord) (e : FiqhEntry),
        unifyFatwa ext fresh f = some e → 50 ≤ e.ruling.length) := by
  refine ⟨?_, ?_, ?_, ?_⟩
  · intro ext fresh h hshort
    simp only [unifyHadith]
    rw [if_pos hshort]
  · intro ext fresh h e he
    simp only [unifyHadith] at he
    by_cases hcond : clean_text h.ruling = [] ∨ (clean_text h.ruling).length < 20
    · rw [if_pos hcond] at he
      exact absurd he (by simp)
    · rw [if_neg hcond] at he
      rw [Option.some.injEq] at he
      subst he
      push_neg at hcond
      exact hcond.2
  · intro ext fresh f hshort
    simp only [unifyFatwa]
    rw [if_pos hshort]
  · intro ext fresh f e he
    simp only [unifyFatwa] at he
    by_cases hcond : clean_text f.ruling = [] ∨ (clean_text f.ruling).length < 50
    · rw [if_pos hcond] at he
      exact absurd he (by simp)
    · rw [if_neg hcond] at he
      rw [Option.some.injEq] at he
      subst he
      push_neg at hcond
      exact hcond.2

/-- Witness for C3: a hadith record whose ruling cleans to the 5-character
string "short" is excluded. -/
theorem unify_ruling_min_length_witness :
    unifyHadith (fun _ => []) (str "u")
      { id := none, ruling := str "short", arabicText := str "", evidence := [],
        authenticity := none, topics := [] } = none :=
  unify_ruling_min_length.1 (fun _ => []) (str "u") _ (Or.inr (by decide))

/-- C6: topic classification never yields an empty set — an input in which
no registered keyword occurs case-insensitively classifies as exactly
`["general"]`, every input classifies non-emptily, and a unified entry's
topics default to `["general"]` when the raw record carries none. -/
theorem topics_never_empty :
    (∀ ch : Str,
        (∀ kw ∈ allKeywords topicKeywordsHadith,
          containsSub kw (ch.map Char.toLower) = false) →
        extract_topics_from_chapter ch = [str "general"]) ∧
    (∀ ch : Str, extract_topics_from_chapter ch ≠ []) ∧
    (∀ ti : Str,
        (∀ kw ∈ allKeywords topicKeywordsFatwa,
          containsSub kw (ti.map Char.toLower) = false) →
        extract_topics_from_title ti = [str "general"]) ∧
    (∀ ti : Str, extract_topics_from_title ti ≠ []) ∧
    (∀ (ext : Str → List Str) (fresh : Str) (h : HadithRecord) (e : FiqhEntry),
        h.topics = [] → unifyHadith ext fresh h = some e →
        e.topics = [str "general"]) ∧
    (∀ (ext : Str → List Str) (fresh : Str) (f : FatwaRecord) (e : FiqhEntry),
        f.topics = [] → unifyFatwa ext fresh f = some e →
        e.topics = [str "general"]) := by
  refine ⟨?_, ?_, ?_, ?_, ?_, ?_⟩
  · intro ch hnone
    unfold extract_topics_from_chapter
    by_cases hch : ch = []
    · rw [if_pos hch]
    · rw [if_neg hch, matchedTopics_eq_nil hnone, if_pos rfl]
  · intro ch
    simp only [extract_topics_from_chapter]
    split
    · simp
    · split
      · simp
      · assumption
  · intro ti hnone
    unfold extract_topics_from_title
    by_cases hti : ti = []
    · rw [if_pos hti]
    · rw [if_neg hti, matchedTopics_eq_nil hnone, if_pos rfl]
  · intro ti
    simp only [extract_topics_from_title]
    split
    · simp
    · split
      · simp
      · assumption
  · intro ext fresh h e htopics he
    simp only [unifyHadith] at he
    by_cases hcond : clean_text h.ruling = [] ∨ (clean_text h.ruling).length < 20
    · rw [if_pos hcond] at he
      exact absurd he (by simp)
    · rw [if_neg hcond] at he
      rw [Option.some.injEq] at he
      subst he
      simp [htopics]
  · intro ext fresh f e htopics he
    simp only [unifyFatwa] at he
    by_cases hcond : clean_text f.ruling = [] ∨ (clean_text f.ruling).length < 50
    · rw [if_pos hcond] at he
      exact absurd he (by simp)
    · rw [if_neg hcond] at he
      rw [Option.some.injEq] at he
      subst he
      simp [htopics]

/-- Witness for C6: the keyword-free chapter name "zzz" classifies as
exactly `["general"]`. -/
theorem topics_never_empty_witness :
    extract_topics_from_chapter (str "zzz") = [str "general"] :=
  topics_never_empty.1 (str "zzz") (by decide)

/-- Counterexample to C7 as stated: the tag "Riba" is not in the mapping,
yet `normalize_topic` does not pass it through unchanged — it returns the
lower-cased "riba". -/
theorem normalize_topic_changes_unrecognized_tag :
    normalize_topic (str "Riba") ≠ str "Riba" := by decide

/-- C7 (amended): `normalize_topic` maps the known spelling variants to
canonical names by exact-match lookup after lower-casing and trimming, and
every tag whose lower-cased, trimmed form is not in the mapping passes
through lower-cased and trimmed but otherwise unchanged. -/
theorem normalize_topic_lookup_or_passthrough :
    normalize_topic (str "salah") = str "prayer" ∧
    normalize_topic (str "wudhu") = str "wudu" ∧
    normalize_topic (str "talaaq") = str "divorce" ∧
    ∀ t : Str,
      lookupTopic normalizations (pyStrip (t.map Char.toLower)) = none →
      normalize_topic t = pyStrip (t.map Char.toLower) := by
  refine ⟨by decide, by decide, by decide, ?_⟩
  intro t hmiss
  simp only [normalize_topic, hmiss]

/-- Witness for C7 (amended): the unmapped tag "Riba" comes out
lower-cased and trimmed. -/
theorem normalize_topic_lookup_or_passthrough_witness :
    normalize_topic (str "Riba") = pyStrip ((str "Riba").map Char.toLower) :=
  normalize_topic_lookup_or_passthrough.2.2.2 (str "Riba") (by decide)

/-- C8: for every entry the embedding text equals the specification's
deterministic serialization — blank-line separated segments in fixed
order: the question when present and non-empty, the ruling always, the
evidence joined by " | " when non-empty, the topics joined by ", " when
non-empty, and the madhab only when present and distinct from
"general". -/
theorem create_embedding_text_matches_spec (e : FiqhEntry) :
    create_embedding_text e = buildTextSpec e := by
  rcases e with ⟨id, ty, q, ruling, ar, ev, tp, md, au, dt⟩
  simp only [create_embedding_text, buildTextSpec]
  rcases q with _ | q <;> rcases md with _ | m
  · by_cases hev : ev = [] <;> by_cases htp : tp = [] <;>
      simp [hev, htp, List.filterMap_cons]
  · by_cases hev : ev = [] <;> by_cases htp : tp = [] <;>
      by_cases hm1 : m = [] <;> by_cases hm2 : m = str "general" <;>
      simp [hev, htp, hm1, hm2, List.filterMap_cons]
  · by_cases hq : q = [] <;> by_cases hev : ev = [] <;> by_cases htp : tp = [] <;>
      simp [hq, hev, htp, List.filterMap_cons]
  · by_cases hq : q = [] <;> by_cases hev : ev = [] <;> by_cases htp : tp = [] <;>
      by_cases hm1 : m = [] <;> by_cases hm2 : m = str "general" <;>
      simp [hq, hev, htp, hm1, hm2, List.filterMap_cons]

/-- The batch loop without failures commits every batch in order and emits
one provider call followed by one store write per batch. -/
theorem processBatches_nofail (bs : List (List FiqhEntry)) (store : List Str) :
    processBatches [] [] bs store =
      ⟨store ++ (bs.flatten.map FiqhEntry.id), batchTrace bs, false⟩ := by
  induction bs generalizing store with
  | nil => simp [processBatches, batchTrace]
  | cons b rest ih =>
    simp only [processBatches, List.headD_nil, Bool.false_eq_true, if_false,
      List.tail_nil, ih, batchTrace, List.flatMap_cons, List.flatten_cons,
      List.map_append, List.append_assoc, List.cons_append, List.nil_append]

/-- Flattening the batches restores the original list. -/
theorem chunksAux_flatten {α : Type} (f : Nat) (l : List α) (hf : l.length ≤ f) :
    (chunksAux f l).flatten = l := by
  induction f generalizing l with
  | zero =>
    have hl : l = [] := List.length_eq_zero.mp (Nat.le_zero.mp hf)
    subst hl
    simp [chunksAux]
  | succ f ih =>
    match l with
    | [] => simp [chunksAux]
    | x :: xs =>
      simp only [chunksAux, List.flatten_cons]
      rw [ih]
      · exact List.take_append_drop _ _
      · have h1 : (x :: xs).length ≤ f + 1 := hf
        have h2 : ((x :: xs).drop BATCH_SIZE).length = (x :: xs).length - BATCH_SIZE := by
          simp
        have h3 : BATCH_SIZE = 100 := rfl
        simp only [List.length_cons] at h1 h2 ⊢
        omega

theorem chunks100_flatten {α : Type} (l : List α) : (chunks100 l).flatten = l :=
  chunksAux_flatten _ _ (Nat.le_refl _)

/-- The sizes of the batches depend only on the length of the input. -/
theorem chunksAux_map_length {α : Type} (f : Nat) (l : List α) (hf : l.length ≤ f) :
    (chunksAux f l).map List.length = sizesAux f l.length := by
  induction f generalizing l with
  | zero =>
    have hl : l = [] := List.length_eq_zero.mp (Nat.le_zero.mp hf)
    subst hl
    simp [chunksAux, sizesAux]
  | succ f ih =>
    match l with
    | [] => simp [chunksAux, sizesAux]
    | x :: xs =>
      simp only [chunksAux, List.map_cons, List.length_take, List.length_cons, sizesAux]
      rw [ih]
      · rw [List.length_drop, List.length_cons]
      · have h1 : (x :: xs).length ≤ f + 1 := hf
        have h2 : ((x :: xs).drop BATCH_SIZE).length = (x :: xs).length - BATCH_SIZE := by
          simp
        have h3 : BATCH_SIZE = 100 := rfl
        simp only [List.length_cons] at h1 h2 ⊢
        omega

theorem chunks100_map_length {α : Type} (l : List α) :
    (chunks100 l).map List.length = sizesAux l.length l.length :=
  chunksAux_map_length _ _ (Nat.le_refl _)

/-- Closed form of a failure-free indexing run: the pending entries are
appended to the store and the trace is the full batch trace. -/
theorem indexRun_nofail (entries : List FiqhEntry) (store : List Str) :
    indexRun [] [] false entries store =
      ⟨store ++ (pendingOf entries store).map FiqhEntry.id,
       batchTrace (chunks100 (pendingOf entries store)), false⟩ := by
  simp only [indexRun, Bool.false_eq_true, if_false]
  by_cases hpend : (pendingOf entries store).isEmpty
  · rw [if_pos hpend]
    rw [List.isEmpty_iff] at hpend
    rw [hpend]
    simp [chunks100, chunksAux, batchTrace]
  · rw [if_neg hpend]
    rw [processBatches_nofail, chunks100_flatten]

/-- Against an empty set of existing ids, everything is pending. -/
theorem pendingOf_nil_store (entries : List FiqhEntry) :
    pendingOf entries [] = entries := by
  unfold pendingOf
  rw [List.filter_eq_self]
  intro e _
  simp

/-- Closed form of a failure-free run whose up-front id query failed: the
whole corpus is treated as pending. -/
theorem indexRun_getfail (entries : List FiqhEntry) (store : List Str) :
    indexRun [] [] true entries store =
      ⟨store ++ entries.map FiqhEntry.id, batchTrace (chunks100 entries), false⟩ := by
  simp only [indexRun, if_pos, pendingOf_nil_store]
  by_cases hpend : entries.isEmpty
  · rw [if_pos hpend]
    rw [List.isEmpty_iff] at hpend
    rw [hpend]
    simp [chunks100, chunksAux, batchTrace]
  · rw [if_neg hpend]
    rw [processBatches_nofail, chunks100_flatten]

/-- The batch loop when the provider raises on batch `k`: the first `k`
batches are committed, the failing call is the last event, and the run
halts. -/
theorem processBatches_pfail_at (k : Nat) (bs : List (List FiqhEntry))
    (store : List Str) (hk : k < bs.length) :
    processBatches (List.replicate k false ++ [true]) [] bs store =
      ⟨store ++ ((bs.take k).flatten.map FiqhEntry.id),
       batchTrace (bs.take k) ++
         [Ev.providerCall (((bs.drop k).headD []).map create_embedding_text)],
       true⟩ := by
  induction k generalizing bs store with
  | zero =>
    match bs, hk with
    | b :: rest, _ =>
      simp [processBatches, batchTrace]
  | succ k ih =>
    match bs, hk with
    | b :: rest, hk =>
      have hk' : k < rest.length := by
        simp only [List.length_cons] at hk
        omega
      simp only [List.replicate_succ, List.cons_append, processBatches,
        List.headD_cons, Bool.false_eq_true, if_false, List.headD_nil,
        List.tail_cons, List.tail_nil]
      rw [ih rest (store ++ b.map FiqhEntry.id) hk']
      simp [batchTrace, List.take_succ_cons, List.drop_succ_cons,
        List.append_assoc]

/-- A store write that raises on batch `k` halts the run in exactly the
same state as a provider failure there: the failed write commits
nothing. -/
theorem processBatches_sfail_at (k : Nat) (bs : List (List FiqhEntry))
    (store : List Str) (hk : k < bs.length) :
    processBatches [] (List.replicate k false ++ [true]) bs store =
      processBatches (List.replicate k false ++ [true]) [] bs store := by
  induction k generalizing bs store with
  | zero =>
    match bs, hk with
    | b :: rest, _ =>
      simp [processBatches]
  | succ k ih =>
    match bs, hk with
    | b :: rest, hk =>
      have hk' : k < rest.length := by
        simp only [List.length_cons] at hk
        omega
      simp only [List.replicate_succ, List.cons_append, processBatches,
        List.headD_cons, Bool.false_eq_true, if_false, List.headD_nil,
        List.tail_cons, List.tail_nil]
      rw [ih rest (store ++ b.map FiqhEntry.id) hk']

theorem evShape_providerCall (ts : List Str) :
    evShape (Ev.providerCall ts) = (true, ts.length) := rfl

theorem evShape_storeWrite (ids : List Str) :
    evShape (Ev.storeWrite ids) = (false, ids.length) := rfl

theorem batchTrace_cons (b : List FiqhEntry) (bs : List (List FiqhEntry)) :
    batchTrace (b :: bs) =
      Ev.providerCall (b.map create_embedding_text) ::
        Ev.storeWrite (b.map FiqhEntry.id) :: batchTrace bs := by
  simp [batchTrace]

/-- A failure-free batch trace contains one provider call per batch. -/
theorem numProviderCalls_batchTrace (bs : List (List FiqhEntry)) :
    numProviderCalls (batchTrace bs) = bs.length := by
  induction bs with
  | nil => simp [numProviderCalls, batchTrace]
  | cons b rest ih =>
    rw [batchTrace_cons]
    simp only [numProviderCalls] at ih ⊢
    simp [List.filter_cons, evShape_providerCall, evShape_storeWrite, ih]

theorem numProviderCalls_append (t1 t2 : List Ev) :
    numProviderCalls (t1 ++ t2) = numProviderCalls t1 + numProviderCalls t2 := by
  simp [numProviderCalls, List.filter_append]

/-- The kinds and sizes of a batch trace, batch by batch. -/
theorem batchTrace_map_evShape (bs : List (List FiqhEntry)) :
    (batchTrace bs).map evShape =
      (bs.map List.length).flatMap (fun n => [(true, n), (false, n)]) := by
  induction bs with
  | nil => simp [batchTrace]
  | cons b rest ih =>
    rw [batchTrace_cons]
    simp [evShape_providerCall, evShape_storeWrite, ih, List.flatMap_cons]

/-- After a failure-free run every entry's id is in the store. -/
theorem mem_storeIds_of_nofail (entries : List FiqhEntry) (store : List Str) :
    ∀ e ∈ entries,
      e.id ∈ store ++ (pendingOf entries store).map FiqhEntry.id := by
  intro e he
  by_cases hid : e.id ∈ store
  · exact List.mem_append_left _ hid
  · refine List.mem_append_right _ (List.mem_map_of_mem _ ?_)
    unfold pendingOf
    rw [List.mem_filter]
    exact ⟨he, by simpa using hid⟩

/-- Nothing is pending when every id is already present. -/
theorem pendingOf_eq_nil (entries : List FiqhEntry) (existing : List Str)
    (h : ∀ e ∈ entries, e.id ∈ existing) :
    pendingOf entries existing = [] := by
  unfold pendingOf
  rw [List.filter_eq_nil_iff]
  intro e he
  simp [h e he]

/-- C1: after a completed run over `entries`, every entry's id is in the
store, a second run over the same `entries` finds its pending set empty,
and that second run is a successful no-op — it performs no provider call,
no store write, and leaves the store's ids (hence `count()`)
unchanged. -/
theorem indexRun_resumable (entries : List FiqhEntry) (store : List Str) :
    (∀ e ∈ entries, e.id ∈ (indexRun [] [] false entries store).storeIds) ∧
    pendingOf entries (indexRun [] [] false entries store).storeIds = [] ∧
    indexRun [] [] false entries (indexRun [] [] false entries store).storeIds =
      ⟨(indexRun [] [] false entries store).storeIds, [], false⟩ := by
  rw [indexRun_nofail entries store]
  have hmem := mem_storeIds_of_nofail entries store
  have hpend : pendingOf entries
      (store ++ (pendingOf entries store).map FiqhEntry.id) = [] :=
    pendingOf_eq_nil _ _ hmem
  refine ⟨hmem, hpend, ?_⟩
  rw [indexRun_nofail entries (store ++ (pendingOf entries store).map FiqhEntry.id)]
  rw [hpend]
  simp [chunks100, chunksAux, batchTrace]

/-- C5: with 250 pending entries the indexer makes exactly three provider
calls of 100, 100 and 50 texts and three store writes of the same sizes,
alternating call before write, and completes. -/
theorem indexRun_250_batches (entries : List FiqhEntry) (h : entries.length = 250) :
    ((indexRun [] [] false entries []).trace.map evShape) =
      [(true, 100), (false, 100), (true, 100), (false, 100), (true, 50), (false, 50)] ∧
    (indexRun [] [] false entries []).halted = false := by
  rw [indexRun_nofail entries []]
  refine ⟨?_, rfl⟩
  show (batchTrace (chunks100 (pendingOf entries []))).map evShape = _
  rw [pendingOf_nil_store, batchTrace_map_evShape, chunks100_map_length, h]
  decide

/-- Witness for C5 at a concrete 250-entry corpus. -/
theorem indexRun_250_batches_witness :
    ((indexRun [] [] false testEntries250 []).trace.map evShape) =
      [(true, 100), (false, 100), (true, 100), (false, 100), (true, 50), (false, 50)] ∧
    (indexRun [] [] false testEntries250 []).halted = false :=
  indexRun_250_batches testEntries250 (by simp [testEntries250])

/-- C4: a provider or store failure on batch `k` halts the run right
there — exactly `k + 1` provider calls happen, the `k` batches committed
before the failure remain in the store, the store-failure run equals the
provider-failure run, and a later failure-free re-invocation completes,
covers every entry, and retries only entries whose id the failed run did
not commit. -/
theorem indexRun_halts_on_failure (entries : List FiqhEntry) (store : List Str)
    (k : Nat) (hk : k < (chunks100 (pendingOf entries store)).length) :
    (indexRun (List.replicate k false ++ [true]) [] false entries store).halted = true ∧
    numProviderCalls
        (indexRun (List.replicate k false ++ [true]) [] false entries store).trace =
      k + 1 ∧
    (indexRun (List.replicate k false ++ [true]) [] false entries store).storeIds =
      store ++
        (((chunks100 (pendingOf entries store)).take k).flatten.map FiqhEntry.id) ∧
    indexRun [] (List.replicate k false ++ [true]) false entries store =
      indexRun (List.replicate k false ++ [true]) [] false entries store ∧
    (indexRun [] [] false entries
        (indexRun (List.replicate k false ++ [true]) [] false entries store).storeIds).halted
      = false ∧
    (∀ e ∈ entries,
      e.id ∈
        (indexRun [] [] false entries
          (indexRun (List.replicate k false ++ [true]) [] false entries store).storeIds).storeIds) ∧
    (indexRun [] [] false entries
        (indexRun (List.replicate k false ++ [true]) [] false entries store).storeIds).trace =
      batchTrace (chunks100 (pendingOf entries
        (indexRun (List.replicate k false ++ [true]) [] false entries store).storeIds)) ∧
    (∀ e ∈ pendingOf entries
        (indexRun (List.replicate k false ++ [true]) [] false entries store).storeIds,
      e.id ∉
        (indexRun (List.replicate k false ++ [true]) [] false entries store).storeIds) := by
  have hne : ¬(pendingOf entries store).isEmpty := by
    rw [List.isEmpty_iff]
    intro hnil
    rw [hnil] at hk
    simp [chunks100, chunksAux] at hk
  have hrun : indexRun (List.replicate k false ++ [true]) [] false entries store =
      processBatches (List.replicate k false ++ [true]) []
        (chunks100 (pendingOf entries store)) store := by
    simp only [indexRun, Bool.false_eq_true, if_false]
    rw [if_neg hne]
  have hruns : indexRun [] (List.replicate k false ++ [true]) false entries store =
      processBatches [] (List.replicate k false ++ [true])
        (chunks100 (pendingOf entries store)) store := by
    simp only [indexRun, Bool.false_eq_true, if_false]
    rw [if_neg hne]
  rw [hrun, hruns, processBatches_sfail_at k _ _ hk, processBatches_pfail_at k _ _ hk]
  refine ⟨rfl, ?_, rfl, rfl, ?_, ?_, ?_, ?_⟩
  · show numProviderCalls (batchTrace _ ++ [Ev.providerCall _]) = k + 1
    rw [numProviderCalls_append, numProviderCalls_batchTrace]
    simp only [numProviderCalls, List.filter_cons, evShape_providerCall,
      List.filter_nil]
    rw [List.length_take]
    have hle : k ≤ (chunks100 (pendingOf entries store)).length := Nat.le_of_lt hk
    simp [Nat.min_eq_left hle]
  · rw [indexRun_nofail]
  · intro e he
    rw [indexRun_nofail]
    exact mem_storeIds_of_nofail entries _ e he
  · rw [indexRun_nofail]
  · intro e he
    unfold pendingOf at he
    rw [List.mem_filter] at he
    exact of_decide_eq_true he.2

/-- Witness for C4: failing the very first batch of a one-entry corpus
halts the run after exactly one provider call. -/
theorem indexRun_halts_on_failure_witness :
    (indexRun (List.replicate 0 false ++ [true]) [] false [eW] []).halted = true ∧
    numProviderCalls
      (indexRun (List.replicate 0 false ++ [true]) [] false [eW] []).trace = 0 + 1 :=
  ⟨(indexRun_halts_on_failure [eW] [] 0 (by decide)).1,
   (indexRun_halts_on_failure [eW] [] 0 (by decide)).2.1⟩

/-- C10: when the up-front query for existing ids fails, the run neither
aborts nor halts in the failure branch; the already-indexed set is taken
to be empty, so every entry is pending and is re-embedded (one provider
call per batch, at least one) and re-written, appending every id to the
store again. -/
theorem indexRun_get_failure_reindexes (entries : List FiqhEntry) (store : List Str)
    (hne : entries ≠ []) (hall : ∀ e ∈ entries, e.id ∈ store) :
    (indexRun [] [] true entries store).halted = false ∧
    (indexRun [] [] true entries store).storeIds = store ++ entries.map FiqhEntry.id ∧
    (indexRun [] [] true entries store).trace = batchTrace (chunks100 entries) ∧
    numProviderCalls (indexRun [] [] true entries store).trace =
      (chunks100 entries).length ∧
    (chunks100 entries).length ≠ 0 := by
  rw [indexRun_getfail entries store]
  refine ⟨rfl, rfl, rfl, numProviderCalls_batchTrace _, ?_⟩
  match entries, hne with
  | x :: xs, _ =>
    simp [chunks100, chunksAux]

/-- Witness for C10: a one-entry corpus whose id the store already holds
is re-embedded and re-written when the id query fails. -/
theorem indexRun_get_failure_reindexes_witness :
    (indexRun [] [] true [eW] [str "e1"]).halted = false ∧
    (indexRun [] [] true [eW] [str "e1"]).storeIds =
      [str "e1"] ++ [eW].map FiqhEntry.id ∧
    (indexRun [] [] true [eW] [str "e1"]).trace = batchTrace (chunks100 [eW]) ∧
    numProviderCalls (indexRun [] [] true [eW] [str "e1"]).trace =
      (chunks100 [eW]).length ∧
    (chunks100 [eW]).length ≠ 0 :=
  indexRun_get_failure_reindexes [eW] [str "e1"] (by decide) (by decide)

/-- Counterexample to C2 as stated: `clean_text` is not idempotent — on
"a <b> c" tag stripping happens after whitespace collapsing, leaving a
double space that a second application collapses. -/
theorem clean_text_not_idempotent :
    clean_text (clean_text (str "a <b> c")) ≠ clean_text (str "a <b> c") := by decide

/-- Counterexample to C9 as stated: the processed-corpus entry built from
Example 1 exists but its ruling does not begin with
"Narrated Aisha:\n\nThe Prophet said ..." — `clean_text` collapsed the
blank line. -/
theorem hadith_example_not_blankline :
    (unifyHadith (fun _ => []) (str "uuid") aishaRecord).map
        (fun e => startsWith (str "Narrated Aisha:\n\nThe Prophet said ...") e.ruling) =
      some false := by decide

/-- C9 (amended): the converted raw record's ruling is the narrator and
text joined by a blank line, and the processed-corpus entry has topics
`["prayer"]` and ruling "Narrated Aisha: The Prophet said ..." — the
blank line becomes a single space during cleaning. -/
theorem hadith_example_amended :
    aishaRecord.ruling = str "Narrated Aisha:\n\nThe Prophet said ..." ∧
    (unifyHadith (fun _ => []) (str "uuid") aishaRecord).map
        (fun e => (e.topics, e.ruling)) =
      some ([str "prayer"], str "Narrated Aisha: The Prophet said ...") := by decide

theorem mem_collapseWs {c : Char} : ∀ {l : Str}, c ∈ collapseWs l → c = ' ' ∨ c ∈ l := by
  intro l
  induction l using collapseWs.induct with
  | case1 => intro h; exact absurd h (by simp [collapseWs])
  | case2 d =>
    intro h
    simp only [collapseWs, List.mem_singleton] at h
    split at h
    · exact Or.inl h
    · exact Or.inr (by simp [h])
  | case3 d e rest hde ih =>
    intro h
    rw [collapseWs, if_pos hde] at h
    rcases ih h with h' | h'
    · exact Or.inl h'
    · exact Or.inr (List.mem_cons_of_mem _ h')
  | case4 d e rest hde ih =>
    intro h
    rw [collapseWs, if_neg hde] at h
    rcases List.mem_cons.mp h with h' | h'
    · split at h'
      · exact Or.inl h'
      · exact Or.inr (by simp [h'])
    · rcases ih h' with h'' | h''
      · exact Or.inl h''
      · exact Or.inr (List.mem_cons_of_mem _ h'')

theorem collapseWs_cons_of_not_space {d : Char} (rest : Str) (hd : pySpace d = false) :
    ∃ t, collapseWs (d :: rest) = d :: t := by
  match rest with
  | [] =>
    refine ⟨[], ?_⟩
    simp [collapseWs, hd]
  | r :: rs =>
    refine ⟨collapseWs (r :: rs), ?_⟩
    rw [collapseWs, if_neg (by simp [hd]), if_neg (by simp [hd])]

theorem collapseWs_nice : ∀ l : Str, NoTwoSpaces (collapseWs l) := by
  intro l
  induction l using collapseWs.induct with
  | case1 => exact ⟨by simp [collapseWs], by simp [collapseWs]⟩
  | case2 d =>
    constructor
    · intro c hc hsp
      simp only [collapseWs, List.mem_singleton] at hc
      subst hc
      split
      · rfl
      · rename_i hd
        rw [if_neg hd] at hsp
        exact absurd hsp hd
    · simp only [collapseWs]
      exact List.chain'_singleton _
  | case3 d e rest hde ih =>
    rw [collapseWs, if_pos hde]
    exact ih
  | case4 d e rest hde ih =>
    rw [collapseWs, if_neg hde]
    have hhead : ∀ y ∈ (collapseWs (e :: rest)).head?,
        ¬(pySpace (if pySpace d then ' ' else d) = true ∧ pySpace y = true) := by
      intro y hy
      by_cases hd : pySpace d
      · -- d is whitespace, so e is not, and the next head is e
        have he : pySpace e = false := by
          cases hpe : pySpace e
          · rfl
          · rw [Bool.and_eq_true] at hde
            exact absurd ⟨hd, hpe⟩ hde
        obtain ⟨t, ht⟩ := collapseWs_cons_of_not_space rest he
        rw [ht] at hy
        simp only [List.head?_cons, Option.mem_def, Option.some.injEq] at hy
        subst hy
        intro hcontra
        rw [he] at hcontra
        exact absurd hcontra.2 (by simp)
      · intro hcontra
        rw [if_neg hd] at hcontra
        exact hd hcontra.1
    constructor
    · intro c hc hsp
      rcases List.mem_cons.mp hc with h' | h'
      · subst h'
        split
        · rfl
        · rename_i hd
          rw [if_neg hd] at hsp
          exact absurd hsp hd
      · exact ih.1 c h' hsp
    · rw [List.chain'_cons']
      exact ⟨hhead, ih.2⟩

theorem collapseWs_fixpoint : ∀ t : Str, NoTwoSpaces t → collapseWs t = t := by
  intro t
  induction t using collapseWs.induct with
  | case1 => intro _; rfl
  | case2 d =>
    intro h
    simp only [collapseWs]
    split
    · rename_i hd
      rw [h.1 d (by simp) hd]
    · rfl
  | case3 d e rest hde ih =>
    intro h
    exfalso
    rw [Bool.and_eq_true] at hde
    have := List.chain'_cons.mp h.2
    exact this.1 ⟨hde.1, hde.2⟩
  | case4 d e rest hde ih =>
    intro h
    rw [collapseWs, if_neg hde]
    have htail : NoTwoSpaces (e :: rest) := by
      refine ⟨fun c hc hsp => h.1 c (List.mem_cons_of_mem _ hc) hsp, ?_⟩
      exact (List.chain'_cons.mp h.2).2
    rw [ih htail]
    congr 1
    split
    · rename_i hd
      exact (h.1 d (by simp) hd).symm
    · rfl

theorem mem_of_mem_dropWhile {p : Char → Bool} :
    ∀ {l : Str} {c : Char}, c ∈ l.dropWhile p → c ∈ l := by
  intro l
  induction l with
  | nil => intro c hc; simp at hc
  | cons d ds ih =>
    intro c hc
    rw [List.dropWhile_cons] at hc
    split at hc
    · exact List.mem_cons_of_mem _ (ih hc)
    · exact hc

theorem mem_pyStrip {s : Str} {c : Char} (h : c ∈ pyStrip s) : c ∈ s := by
  unfold pyStrip at h
  rw [List.mem_reverse] at h
  have h1 := mem_of_mem_dropWhile h
  rw [List.mem_reverse] at h1
  exact mem_of_mem_dropWhile h1

theorem chain'_dropWhile {R : Char → Char → Prop} (p : Char → Bool) :
    ∀ {l : Str}, List.Chain' R l → List.Chain' R (l.dropWhile p) := by
  intro l
  induction l with
  | nil => intro h; simp
  | cons d ds ih =>
    intro h
    rw [List.dropWhile_cons]
    split
    · exact ih ((List.chain'_cons'.mp h).2)
    · exact h

theorem chain'_reverse_of_symm {R : Char → Char → Prop}
    (hsymm : ∀ a b, R a b → R b a) {l : Str} (h : List.Chain' R l) :
    List.Chain' R l.reverse := by
  rw [List.chain'_reverse]
  exact List.Chain'.imp (fun a b hr => hsymm a b hr) h

theorem noTwoSpaces_pyStrip {t : Str} (h : NoTwoSpaces t) :
    NoTwoSpaces (pyStrip t) := by
  obtain ⟨hmem, hchain⟩ := h
  have hsymm : ∀ a b : Char,
      (¬(pySpace a = true ∧ pySpace b = true)) →
      (¬(pySpace b = true ∧ pySpace a = true)) := by
    intro a b hr hc
    exact hr ⟨hc.2, hc.1⟩
  constructor
  · intro c hc hsp
    exact hmem c (mem_pyStrip hc) hsp
  · unfold pyStrip
    exact chain'_reverse_of_symm hsymm
      (chain'_dropWhile _ (chain'_reverse_of_symm hsymm (chain'_dropWhile _ hchain)))

theorem head_dropWhile_not {p : Char → Bool} :
    ∀ {l : Str} {c : Char}, (l.dropWhile p).head? = some c → p c = false := by
  intro l
  induction l with
  | nil => intro c hc; simp at hc
  | cons d ds ih =>
    intro c hc
    rw [List.dropWhile_cons] at hc
    split at hc
    · exact ih hc
    · rename_i hd
      rw [List.head?_cons, Option.some.injEq] at hc
      subst hc
      exact Bool.not_eq_true _ |>.mp hd

theorem dropWhile_eq_self_of_head {p : Char → Bool} {l : Str}
    (h : ∀ c, l.head? = some c → p c = false) : l.dropWhile p = l := by
  match l with
  | [] => rfl
  | d :: ds =>
    rw [List.dropWhile_cons, if_neg]
    rw [h d rfl]
    simp

theorem getLast?_dropWhile {p : Char → Bool} {l : Str}
    (hne : l.dropWhile p ≠ []) : (l.dropWhile p).getLast? = l.getLast? := by
  obtain ⟨pre, hpre⟩ := List.dropWhile_suffix p (l := l)
  conv_rhs => rw [← hpre]
  exact (List.getLast?_append_of_ne_nil pre hne).symm

theorem pyStrip_idem (w : Str) : pyStrip (pyStrip w) = pyStrip w := by
  by_cases hy : (w.dropWhile pySpace).reverse.dropWhile pySpace = []
  · show pyStrip (((w.dropWhile pySpace).reverse.dropWhile pySpace).reverse) =
      ((w.dropWhile pySpace).reverse.dropWhile pySpace).reverse
    rw [hy]
    rfl
  · have hyhead : ∀ c,
        ((w.dropWhile pySpace).reverse.dropWhile pySpace).head? = some c →
        pySpace c = false := fun c hc => head_dropWhile_not hc
    have hxne : w.dropWhile pySpace ≠ [] := by
      intro hx
      rw [hx] at hy
      simp at hy
    have hylast :
        ((w.dropWhile pySpace).reverse.dropWhile pySpace).getLast? =
          (w.dropWhile pySpace).head? := by
      rw [getLast?_dropWhile hy, List.getLast?_reverse]
    show pyStrip (((w.dropWhile pySpace).reverse.dropWhile pySpace).reverse) = _
    unfold pyStrip
    rw [dropWhile_eq_self_of_head (p := pySpace)
      (l := ((w.dropWhile pySpace).reverse.dropWhile pySpace).reverse) ?hrev]
    case hrev =>
      intro c hc
      rw [List.head?_reverse, hylast] at hc
      exact head_dropWhile_not hc
    rw [List.reverse_reverse]
    rw [dropWhile_eq_self_of_head (p := pySpace) hyhead]

theorem mem_of_startsWith :
    ∀ {pat t : Str}, startsWith pat t = true → ∀ c ∈ pat, c ∈ t := by
  intro pat
  induction pat with
  | nil => intro t _ c hc; simp at hc
  | cons p ps ih =>
    intro t h c hc
    match t with
    | [] => simp [startsWith] at h
    | d :: ds =>
      rw [startsWith, Bool.and_eq_true, beq_iff_eq] at h
      rcases List.mem_cons.mp hc with h' | h'
      · subst h'
        rw [h.1]
        exact List.mem_cons_self _ _
      · exact List.mem_cons_of_mem _ (ih h.2 c h')

theorem replaceAux_of_mem_not_mem (c0 : Char) (pat rep : Str) (hc : c0 ∈ pat) :
    ∀ (f : Nat) (s : Str), c0 ∉ s → replaceAux pat rep f s = s := by
  intro f
  induction f with
  | zero => intro s _; cases s <;> rfl
  | succ f ih =>
    intro s hs
    match s with
    | [] => rfl
    | c :: cs =>
      have hsw : startsWith pat (c :: cs) = false := by
        cases hsw : startsWith pat (c :: cs)
        · rfl
        · exact absurd (mem_of_startsWith hsw c0 hc) hs
      rw [replaceAux, if_neg (by simp [hsw])]
      rw [ih cs (fun h => hs (List.mem_cons_of_mem _ h))]

/-- A replacement whose pattern holds a character absent from the string is
the identity. -/
theorem replaceStr_of_mem_not_mem (c0 : Char) (pat rep : Str) (hc : c0 ∈ pat)
    {s : Str} (h : c0 ∉ s) : replaceStr pat rep s = s :=
  replaceAux_of_mem_not_mem c0 pat rep hc _ _ h

theorem stripTagsAux_of_not_mem :
    ∀ (f : Nat) (s : Str), '<' ∉ s → stripTagsAux f s = s := by
  intro f
  induction f with
  | zero => intro s _; cases s <;> rfl
  | succ f ih =>
    intro s hs
    match s with
    | [] => rfl
    | c :: cs =>
      have hc : ¬(c = '<') := fun h => hs (h ▸ List.mem_cons_self c cs)
      rw [stripTagsAux, if_neg hc]
      rw [ih cs (fun h => hs (List.mem_cons_of_mem _ h))]

theorem stripTags_of_not_mem {s : Str} (h : '<' ∉ s) : stripTags s = s :=
  stripTagsAux_of_not_mem _ _ h

theorem clean_text_eq_simple (s : Str)
    (h1 : '&' ∉ s) (h2 : '<' ∉ s) (h3 : '"' ∉ s) :
    clean_text s = pyStrip (collapseWs s) := by
  by_cases hs : s = []
  · subst hs
    rfl
  · unfold clean_text
    rw [if_neg hs]
    have hamp : '&' ∉ collapseWs s := by
      intro hc
      rcases mem_collapseWs hc with h | h
      · exact absurd h (by decide)
      · exact h1 h
    have hlt : '<' ∉ collapseWs s := by
      intro hc
      rcases mem_collapseWs hc with h | h
      · exact absurd h (by decide)
      · exact h2 h
    have hq : '"' ∉ collapseWs s := by
      intro hc
      rcases mem_collapseWs hc with h | h
      · exact absurd h (by decide)
      · exact h3 h
    have e1 : replaceStr (str "&nbsp;") (str " ") (collapseWs s) = collapseWs s :=
      replaceStr_of_mem_not_mem '&' (str "&nbsp;") (str " ") (by decide) hamp
    have e2 : replaceStr (str "&quot;") (str "\"") (collapseWs s) = collapseWs s :=
      replaceStr_of_mem_not_mem '&' (str "&quot;") (str "\"") (by decide) hamp
    have e3 : replaceStr (str "&amp;") (str "&") (collapseWs s) = collapseWs s :=
      replaceStr_of_mem_not_mem '&' (str "&amp;") (str "&") (by decide) hamp
    have e4 : replaceStr (str "&lt;") (str "<") (collapseWs s) = collapseWs s :=
      replaceStr_of_mem_not_mem '&' (str "&lt;") (str "<") (by decide) hamp
    have e5 : replaceStr (str "&gt;") (str ">") (collapseWs s) = collapseWs s :=
      replaceStr_of_mem_not_mem '&' (str "&gt;") (str ">") (by decide) hamp
    have e6 : stripTags (collapseWs s) = collapseWs s := stripTags_of_not_mem hlt
    have e7 : replaceStr (str "\"") (str "\"") (collapseWs s) = collapseWs s :=
      replaceStr_of_mem_not_mem '"' (str "\"") (str "\"") (by decide) hq
    have e8 : replaceStr (str ", \"'\").replace(") (str "'") (collapseWs s) = collapseWs s :=
      replaceStr_of_mem_not_mem '"' (str ", \"'\").replace(") (str "'") (by decide) hq
    show pyStrip (replaceStr (str ", \"'\").replace(") (str "'")
        (replaceStr (str "\"") (str "\"") (replaceStr (str "\"") (str "\"")
        (stripTags (replaceStr (str "&gt;") (str ">")
        (replaceStr (str "&lt;") (str "<")
        (replaceStr (str "&amp;") (str "&")
        (replaceStr (str "&quot;") (str "\"")
        (replaceStr (str "&nbsp;") (str " ") (collapseWs s)))))))))) = _
    rw [e1, e2, e3, e4, e5, e6, e7, e7, e8]

/-- C2 (amended): `clean_text` is idempotent on every string containing
none of '&', '<' and '"'.  In general it is not idempotent, because
whitespace collapsing runs before entity decoding, tag stripping and the
replacement statements, and those later steps can expose new adjacent
spaces or new occurrences of the replaced pattern. -/
theorem clean_text_idem_of_plain (s : Str)
    (h1 : '&' ∉ s) (h2 : '<' ∉ s) (h3 : '"' ∉ s) :
    clean_text (clean_text s) = clean_text s := by
  rw [clean_text_eq_simple s h1 h2 h3]
  have humem : ∀ c ∈ pyStrip (collapseWs s), c = ' ' ∨ c ∈ s := by
    intro c hc
    exact mem_collapseWs (mem_pyStrip hc)
  have hampu : '&' ∉ pyStrip (collapseWs s) := by
    intro hc
    rcases humem _ hc with h | h
    · exact absurd h (by decide)
    · exact h1 h
  have hltu : '<' ∉ pyStrip (collapseWs s) := by
    intro hc
    rcases humem _ hc with h | h
    · exact absurd h (by decide)
    · exact h2 h
  have hqu : '"' ∉ pyStrip (collapseWs s) := by
    intro hc
    rcases humem _ hc with h | h
    · exact absurd h (by decide)
    · exact h3 h
  rw [clean_text_eq_simple _ hampu hltu hqu]
  rw [collapseWs_fixpoint _ (noTwoSpaces_pyStrip (collapseWs_nice s))]
  exact pyStrip_idem _

/-- Witness for C2 (amended) at the string "a  b", which holds no
ampersand, angle bracket or double quote. -/
theorem clean_text_idem_of_plain_witness :
    ('&' ∉ str "a  b") ∧ ('<' ∉ str "a  b") ∧ ('"' ∉ str "a  b") ∧
    clean_text (clean_text (str "a  b")) = clean_text (str "a  b") :=
  ⟨by decide, by decide, by decide,
   clean_text_idem_of_plain (str "a  b") (by decide) (by decide) (by decide)⟩

end Fiqh
